import Mathlib

/-
Verification of the fuzzh3 content-discovery fuzzer (QUIC/HTTP3 client,
in-flight table, backpressure-aware pipelining loop and matcher).

The definitions below are a shallow embedding of the Rust sources:
  src/client/http.rs  — Request / Response records,
  src/fuzz.rs         — Matcher and the Fuzzer::fuzz control loop,
  src/client.rs       — Client::send_request / Client::poll_responses and the
                        in-flight table (HashMap<u64, InFlight>),
  src/config.rs       — QuicConfig::new.
The quiche protocol engine and the OS socket are external collaborators; their
answers (stream admission results, h3 events, DNS results) appear as inputs of
the embedded functions, exactly at the points where the Rust code calls out.
-/

namespace Fuzzh3

/-- HTTP request record from `src/client/http.rs` (`struct Request`); the
header map is modelled as an association list. -/
structure Request where
  path : String
  scheme : String
  method : String
  host : String
  headers : List (String × String)
deriving DecidableEq

/-- `Request::with_path` from `src/client/http.rs`: clone of the base request
with `path` set to `"/" + path`. -/
def Request.with_path (r : Request) (p : String) : Request :=
  { r with path := "/" ++ p }

/-- HTTP response record from `src/client/http.rs` (`struct Response`): it
carries status, headers and body only — a response holds no request path. -/
structure Response where
  status : Nat
  headers : List (String × String)
  body : List Nat
deriving DecidableEq

/-- Inclusive integer range, modelling Rust's `RangeInclusive` as used by the
matcher (`codes : Vec<RangeInclusive<u16>>`, `size : Option<RangeInclusive<usize>>`). -/
structure RangeIncl where
  lo : Nat
  hi : Nat
deriving DecidableEq

/-- `RangeInclusive::contains`. -/
def RangeIncl.contains (r : RangeIncl) (x : Nat) : Bool :=
  decide (r.lo ≤ x ∧ x ≤ r.hi)

/-- `struct Matcher` from `src/fuzz.rs` lines 89–92. -/
structure Matcher where
  codes : List RangeIncl
  size : Option RangeIncl
deriving DecidableEq

/-- `Matcher::matches` from `src/fuzz.rs` lines 105–115. -/
def Matcher.matches (m : Matcher) (resp : Response) : Bool :=
  if !(m.codes.any fun r => r.contains resp.status) then
    false
  else
    match m.size with
    | some size => size.contains resp.body.length
    | none => true

/-- `Matcher::default` from `src/fuzz.rs` lines 118–131. -/
def Matcher.default : Matcher :=
  { codes := [⟨200, 299⟩, ⟨301, 302⟩, ⟨307, 307⟩, ⟨401, 401⟩, ⟨403, 403⟩,
              ⟨405, 405⟩, ⟨500, 500⟩],
    size := none }

/-- `struct InFlight` from `src/client.rs` lines 286–290: the partially
assembled response of a submitted, unfinished request. It stores no
information about the request that opened the stream. -/
structure InFlight where
  status : Option Nat
  headers : List (String × String)
  body : List Nat
deriving DecidableEq

/-- `InFlight::new` from `src/client.rs` lines 292–300. -/
def InFlight.new : InFlight :=
  { status := none, headers := [], body := [] }

/-- The in-flight table `HashMap<u64, InFlight>` as an association list with
unique keys (maintained by the operations below). -/
abbrev Table := List (Nat × InFlight)

/-- `HashMap::get` / `get_mut` on the in-flight table. -/
def lookupTable : Table → Nat → Option InFlight
  | [], _ => none
  | (k, v) :: rest, id => if k = id then some v else lookupTable rest id

/-- `HashMap::insert` on the in-flight table: replace the entry when the key
is present, otherwise add a new one. -/
def insertTable : Table → Nat → InFlight → Table
  | [], id, v => [(id, v)]
  | (k, w) :: rest, id, v =>
    if k = id then (id, v) :: rest else (k, w) :: insertTable rest id v

/-- `HashMap::remove` on the in-flight table. -/
def eraseTable : Table → Nat → Table
  | [], _ => []
  | (k, v) :: rest, id => if k = id then rest else (k, v) :: eraseTable rest id

/-- `HashMap<String, String>::insert` for response headers: last write wins. -/
def assocInsert : List (String × String) → String → String → List (String × String)
  | [], k, v => [(k, v)]
  | (k', v') :: rest, k, v =>
    if k' = k then (k, v) :: rest else (k', v') :: assocInsert rest k v

/-- `enum ClientError` from `src/client.rs` lines 302–311. `InFlightFull` is
the spec's `AdmissionDenied`, `WouldBlock` its `Transient`. -/
inductive ClientError where
  | inFlightFull
  | wouldBlock
  | otherErr
deriving DecidableEq

/-- Reply of the external engine call `h3.send_request(&mut conn_quic,
&req.to_quiche(), true)` inside `Client::send_request`: a fresh stream id, the
flow-control signal `quiche::h3::Error::StreamBlocked`, or any other engine
error. The engine (quiche) is an external collaborator, so its reply is an
input of the model. -/
inductive H3SendResult where
  | ok (id : Nat)
  | streamBlocked
  | engineErr
deriving DecidableEq

/-- `Client::send_request` from `src/client.rs` lines 194–220.
`ensureH3Ok` is the outcome of `ensure_h3()`; `peerStreamsLeftBidi` the value
of `conn_quic.peer_streams_left_bidi()`; `h3res` the engine's reply to the
stream-open attempt. The request `req` is serialised to the engine and stored
nowhere locally (the table entry is `InFlight::new()`). Returns the Rust
`Result` paired with the final `self.in_flight` table. -/
def send_request (ensureH3Ok : Bool) (peerStreamsLeftBidi : Nat)
    (h3res : H3SendResult) (req : Request) (tbl : Table) :
    Except ClientError Nat × Table :=
  if ensureH3Ok = false then (.error .otherErr, tbl)
  else if peerStreamsLeftBidi = 0 then (.error .inFlightFull, tbl)
  else
    match h3res with
    | .streamBlocked => (.error .wouldBlock, tbl)
    | .engineErr => (.error .otherErr, tbl)
    | .ok id =>
      if (lookupTable tbl id).isSome then
        (.error .otherErr, insertTable tbl id InFlight.new)
      else
        (.ok id, insertTable tbl id InFlight.new)

/-- One `quiche::h3` event as consumed by `Client::poll_responses`: a Headers
event carries the decoded name/value pairs; a Data event carries the successive
byte chunks the `recv_body` loop reads for the stream on this iteration;
`otherEv` covers the events the Rust `_ => {}` arm ignores. -/
inductive H3Event where
  | headersEv (id : Nat) (list : List (String × String))
  | dataEv (id : Nat) (chunks : List (List Nat))
  | finishedEv (id : Nat)
  | otherEv
deriving DecidableEq

/-- Rust `str::parse::<u16>()` on the `:status` pseudo-header value
(success cases: a decimal number below 2^16). -/
def parseU16 (s : String) : Option Nat :=
  match s.toNat? with
  | some n => if n < 65536 then some n else none
  | none => none

/-- The header-recording loop of the Headers arm (`src/client.rs` 234–243):
`:status` is parsed into `status`, every other pair is recorded last-write-wins.
Returns the updated state plus `false` when `value.parse()?` fails; updates made
before the failing pair are kept, as with the Rust in-place mutation. -/
def applyHeaders (st : InFlight) : List (String × String) → InFlight × Bool
  | [] => (st, true)
  | (name, value) :: rest =>
    if name = ":status" then
      match parseU16 value with
      | some s => applyHeaders { st with status := some s } rest
      | none => (st, false)
    else
      applyHeaders { st with headers := assocInsert st.headers name value } rest

/-- Failure outcomes of `Client::poll_responses`: the `expect("unknown stream
id")` panics, a failing `:status` parse, the `missing :status` error on a
Finished stream, and a fatal engine error from `h3.poll`. -/
inductive PollError where
  | panicUnknown
  | statusParseFailed
  | missingStatus
  | engineFailed
deriving DecidableEq

/-- One iteration of the `h3.poll` loop in `Client::poll_responses`
(`src/client.rs` 229–270), acting on the in-flight table and the `completed`
vector; the third component is `some e` when the iteration panics or raises an
error (table mutations made before the failure point are kept, matching the
Rust `&mut self` state). -/
def processEvent (tbl : Table) (completed : List Response) :
    H3Event → Table × List Response × Option PollError
  | .headersEv id list =>
    match lookupTable tbl id with
    | none => (tbl, completed, some .panicUnknown)
    | some st =>
      match applyHeaders st list with
      | (st', true) => (insertTable tbl id st', completed, none)
      | (st', false) => (insertTable tbl id st', completed, some .statusParseFailed)
  | .dataEv id chunks =>
    match lookupTable tbl id with
    | none => (tbl, completed, some .panicUnknown)
    | some st =>
      (insertTable tbl id { st with body := st.body ++ chunks.flatten }, completed, none)
  | .finishedEv id =>
    match lookupTable tbl id with
    | none => (tbl, completed, some .panicUnknown)
    | some st =>
      match st.status with
      | none => (eraseTable tbl id, completed, some .missingStatus)
      | some s => (eraseTable tbl id, completed ++ [⟨s, st.headers, st.body⟩], none)
  | .otherEv => (tbl, completed, none)

/-- The full `h3.poll` loop of `Client::poll_responses`: events are processed
until the engine reports `Done` (end of the list) or an iteration fails.
Returns the final in-flight table together with either the completed responses
or the error — matching the `&mut self` table plus the `Result` value. -/
def pollEvents (tbl : Table) (completed : List Response) :
    List H3Event → Table × Except PollError (List Response)
  | [] => (tbl, .ok completed)
  | e :: rest =>
    match processEvent tbl completed e with
    | (tbl', c', none) => pollEvents tbl' c' rest
    | (tbl', _, some err) => (tbl', .error err)

/-- The Data-event chunk batches delivered for stream `id` by a sequence of
events, in delivery order. -/
def dataChunksFor (id : Nat) : List H3Event → List (List (List Nat))
  | [] => []
  | .dataEv i cs :: rest =>
    if i = id then cs :: dataChunksFor id rest else dataChunksFor id rest
  | _ :: rest => dataChunksFor id rest

/-- The queue-draining inner loop of `Fuzzer::fuzz` (`src/fuzz.rs` 67–81),
over an abstract client state `σ`; `submit s req` stands for
`self.client.send_request(&req)`. Returns the client state, the remaining
queue, the successfully submitted words in order, and whether a fatal
submission error aborted the run. -/
def drain {σ : Type} (submit : σ → Request → Except ClientError Nat × σ)
    (base : Request) : σ → List String → σ × List String × List String × Bool
  | s, [] => (s, [], [], false)
  | s, w :: rest =>
    match submit s (base.with_path w) with
    | (.ok _, s') =>
      match drain submit base s' rest with
      | (s'', rem, sub, fatalQ) => (s'', rem, w :: sub, fatalQ)
    | (.error .inFlightFull, s') => (s', w :: rest, [], false)
    | (.error .wouldBlock, s') => (s', w :: rest, [], false)
    | (.error .otherErr, s') => (s', w :: rest, [], true)

/-- Abstract connection client as driven by the fuzz loop: `pump` is
`poll_io`, `harvest` is `poll_responses`, `submit` is `send_request` and
`hasInFlight` is `has_in_flight`. -/
structure EngineModel (σ : Type) where
  pump : σ → σ
  harvest : σ → σ × List Response
  submit : σ → Request → Except ClientError Nat × σ
  hasInFlight : σ → Bool

/-- Outcome of the fuzz control loop: normal completion or a fatal submission
error, each with the final client state and the queue at that point. -/
inductive LoopResult (σ : Type) where
  | done (s : σ) (pending : List String)
  | fatalErr (s : σ) (pending : List String)

/-- The outer control loop of `Fuzzer::fuzz` (`src/fuzz.rs` 57–82), with fuel;
`none` means the fuel ran out before the loop finished. The matcher output
printed per tick does not influence control flow and is dropped here. -/
def fuzzLoop {σ : Type} (M : EngineModel σ) (base : Request) :
    Nat → σ → List String → Option (LoopResult σ)
  | 0, _, _ => none
  | fuel + 1, s, pending =>
    if pending = [] ∧ M.hasInFlight s = false then some (.done s pending)
    else if (drain M.submit base ((M.harvest (M.pump s)).1) pending).2.2.2 then
      some (.fatalErr (drain M.submit base ((M.harvest (M.pump s)).1) pending).1
        (drain M.submit base ((M.harvest (M.pump s)).1) pending).2.1)
    else
      fuzzLoop M base fuel (drain M.submit base ((M.harvest (M.pump s)).1) pending).1
        (drain M.submit base ((M.harvest (M.pump s)).1) pending).2.1

/-- A connection that never admits a request: the peer-advertised stream
budget is zero forever, so every `send_request` takes the
`peer_streams_left_bidi() == 0` path and reports `InFlightFull`. No request is
ever accepted, so — vacuously — every accepted request completes. -/
def stuckEngine : EngineModel Unit :=
  { pump := fun s => s
    harvest := fun s => (s, [])
    submit := fun s _ => (.error .inFlightFull, s)
    hasInFlight := fun _ => false }

/-- One harvest turn over a list of remaining-tick counters: the due requests
(counter 0) complete and are dropped, the others age by one tick. -/
def harvestStep : List Nat → List Nat
  | [] => []
  | t :: rest => if t = 0 then harvestStep rest else (t - 1) :: harvestStep rest

/-- Modelled from the spec (section 6, external Protocol Engine contract): a
conformant connection with concurrency budget `N ≥ 1` that completes every
accepted request after at most `D` further ticks. The state is the list of
remaining-tick counters of the accepted, unfinished requests; `submit` admits
while fewer than `N` requests are open, `harvest` completes the due requests
and ages the rest. -/
def timerEngine (N D : Nat) : EngineModel (List Nat) :=
  { pump := fun s => s
    harvest := fun s =>
      (harvestStep s, (s.filter fun t => t == 0).map fun _ => ⟨200, [], []⟩)
    submit := fun s _ =>
      if s.length < N then (.ok s.length, D :: s) else (.error .inFlightFull, s)
    hasInFlight := fun s => !s.isEmpty }

/-- Termination measure contribution of the in-flight timers. -/
def timerWeight (s : List Nat) : Nat :=
  (s.map fun t => t + 1).sum

/-- A concrete base request (scheme/authority/method template shared by all
candidates, as built by `build_base_request` in `src/lib.rs`). -/
def baseReq : Request :=
  { path := "/", scheme := "https", method := "GET", host := "example.com",
    headers := [] }

/-- Submitting a list of requests in order: each `send_request` consumes its
own engine inputs `(ensure_h3 outcome, peer budget, engine reply)` and threads
the in-flight table, matching repeated calls on the `&mut self` client. -/
def submitAll : List (Bool × Nat × H3SendResult) → List Request → Table → Table
  | _, [], tbl => tbl
  | [], _ :: _, tbl => tbl
  | (e, left, res) :: engs, req :: reqs, tbl =>
    submitAll engs reqs (send_request e left res req tbl).2

/-- Joint state of the client's in-flight table and the peer-advertised
bidirectional stream budget still available (`peer_streams_left_bidi`). -/
structure Sys where
  tbl : Table
  left : Nat
deriving DecidableEq

/-- Modelled from the spec (section 6): one observable step of the
client/engine pair. A successful `send_request` runs the code's admission path
(`src/client.rs` 194–220) and consumes one unit of peer budget; Headers/Data
events update an existing entry in place; a Finished event removes its entry
(`src/client.rs` 256–264), upon which the peer replenishes at most one unit of
budget. -/
inductive Step : Sys → Sys → Prop where
  | submit (s : Sys) (id : Nat) (req : Request) (h : s.left ≠ 0)
      (hfresh : lookupTable s.tbl id = none) :
      Step s ⟨(send_request true s.left (.ok id) req s.tbl).2, s.left - 1⟩
  | update (s : Sys) (id : Nat) (st st' : InFlight)
      (h : lookupTable s.tbl id = some st) :
      Step s ⟨insertTable s.tbl id st', s.left⟩
  | finish (s : Sys) (id : Nat) (st : InFlight)
      (h : lookupTable s.tbl id = some st) (g : Nat) (hg : g ≤ 1) :
      Step s ⟨eraseTable s.tbl id, s.left + g⟩

/-- IPv4 socket address (abstract). -/
structure SocketAddrV4 where
  ip : Nat
  port : Nat
deriving DecidableEq

/-- `struct QuicConfig` from `src/config.rs` lines 9–13. -/
structure QuicConfig where
  server_name : String
  remote_addr : SocketAddrV4
  verify_peer : Bool
deriving DecidableEq

/-- The parts of a parsed URL that `QuicConfig::new` reads: `host_str()` and
`port_or_known_default()`. -/
structure UrlParts where
  host : Option String
  port : Option Nat
deriving DecidableEq

/-- Outcome of `QuicConfig::new`, separating the `anyhow` error paths from the
panic of `resolve_ipv4(host, port)?[0]` on an empty address vector. -/
inductive ConfigResult where
  | ok (c : QuicConfig)
  | errorResult
  | panicIndex
deriving DecidableEq

/-- Whether `QuicConfig::new` succeeded. -/
def ConfigResult.isOk : ConfigResult → Bool
  | .ok _ => true
  | _ => false

/-- `QuicConfig::new` from `src/config.rs` lines 16–27. DNS resolution
(`resolve_ipv4`, a blocking OS lookup) is an input: `resolver host port` is
`some addrs` when the lookup succeeds with the IPv4 addresses `addrs`, `none`
when it fails. Note `verify_peer := !verify_peer`: the parameter is the CLI's
`no_verify` flag. -/
def QuicConfig.new (resolver : String → Nat → Option (List SocketAddrV4))
    (url : UrlParts) (verify_peer : Bool) : ConfigResult :=
  match url.host, url.port with
  | some host, some port =>
    match resolver host port with
    | none => .errorResult
    | some [] => .panicIndex
    | some (a :: _) =>
      .ok { server_name := host, remote_addr := a, verify_peer := !verify_peer }
  | _, _ => .errorResult

/-- A concrete submit oracle for witnesses: state counts accepted requests,
only the first submission is admitted. -/
def submitEx : Nat → Request → Except ClientError Nat × Nat :=
  fun s _ => if s = 0 then (.ok 0, 1) else (.error .inFlightFull, s)

theorem lookupTable_insert_ne (tbl : Table) (id id' : Nat) (v : InFlight)
    (h : id ≠ id') :
    lookupTable (insertTable tbl id' v) id = lookupTable tbl id := by
  induction tbl with
  | nil => simp [insertTable, lookupTable, Ne.symm h]
  | cons hd rest ih =>
    obtain ⟨k, w⟩ := hd
    by_cases hk : k = id'
    · subst hk
      simp [insertTable, lookupTable, Ne.symm h]
    · by_cases hkid : k = id <;> simp [insertTable, lookupTable, hk, hkid, ih, h]

theorem lookupTable_erase_ne (tbl : Table) (id id' : Nat) (h : id ≠ id') :
    lookupTable (eraseTable tbl id') id = lookupTable tbl id := by
  induction tbl with
  | nil => rfl
  | cons hd rest ih =>
    obtain ⟨k, w⟩ := hd
    by_cases hk : k = id'
    · subst hk
      simp [eraseTable, lookupTable, Ne.symm h]
    · by_cases hkid : k = id <;> simp [eraseTable, lookupTable, hk, hkid, ih, h]

theorem length_insertTable_none (tbl : Table) (id : Nat) (v : InFlight)
    (h : lookupTable tbl id = none) :
    (insertTable tbl id v).length = tbl.length + 1 := by
  induction tbl with
  | nil => rfl
  | cons hd rest ih =>
    obtain ⟨k, w⟩ := hd
    by_cases hk : k = id
    · simp [lookupTable, hk] at h
    · simp [lookupTable, hk] at h
      simp [insertTable, hk, ih h]

theorem length_insertTable_some (tbl : Table) (id : Nat) (v st : InFlight)
    (h : lookupTable tbl id = some st) :
    (insertTable tbl id v).length = tbl.length := by
  induction tbl with
  | nil => simp [lookupTable] at h
  | cons hd rest ih =>
    obtain ⟨k, w⟩ := hd
    by_cases hk : k = id
    · simp [insertTable, hk]
    · simp [lookupTable, hk] at h
      simp [insertTable, hk, ih h]

theorem length_eraseTable_some (tbl : Table) (id : Nat) (st : InFlight)
    (h : lookupTable tbl id = some st) :
    tbl.length = (eraseTable tbl id).length + 1 := by
  induction tbl with
  | nil => simp [lookupTable] at h
  | cons hd rest ih =>
    obtain ⟨k, w⟩ := hd
    by_cases hk : k = id
    · simp [eraseTable, hk]
    · simp [lookupTable, hk] at h
      simp [eraseTable, hk, ih h]

theorem lookupTable_none_of_not_mem (tbl : Table) (id : Nat)
    (h : id ∉ tbl.map Prod.fst) :
    lookupTable tbl id = none := by
  induction tbl with
  | nil => rfl
  | cons hd rest ih =>
    obtain ⟨k, w⟩ := hd
    simp only [List.map_cons, List.mem_cons, not_or] at h
    have hk : ¬k = id := fun hk => h.1 hk.symm
    simp [lookupTable, hk, ih h.2]

theorem lookupTable_erase_self (tbl : Table) (id : Nat)
    (h : (tbl.map Prod.fst).Nodup) :
    lookupTable (eraseTable tbl id) id = none := by
  induction tbl with
  | nil => rfl
  | cons hd rest ih =>
    obtain ⟨k, w⟩ := hd
    simp only [List.map_cons, List.nodup_cons] at h
    by_cases hk : k = id
    · subst hk
      simpa [eraseTable] using lookupTable_none_of_not_mem rest k h.1
    · simp [eraseTable, lookupTable, hk, ih h.2]

theorem applyHeaders_body (l : List (String × String)) :
    ∀ st : InFlight, ((applyHeaders st l).1).body = st.body := by
  induction l with
  | nil => intro st; rfl
  | cons hd rest ih =>
    intro st
    obtain ⟨n, v⟩ := hd
    by_cases hn : n = ":status"
    · cases hpv : parseU16 v <;> simp [applyHeaders, hn, hpv, ih]
    · simp [applyHeaders, hn, ih]

theorem drain_decomp {σ : Type} (submit : σ → Request → Except ClientError Nat × σ)
    (base : Request) :
    ∀ (pending : List String) (s : σ),
      pending = (drain submit base s pending).2.2.1 ++ (drain submit base s pending).2.1 := by
  intro pending
  induction pending with
  | nil => intro s; rfl
  | cons w rest ih =>
    intro s
    rcases hs : submit s (base.with_path w) with ⟨r, s'⟩
    cases r with
    | ok id =>
      rcases hd : drain submit base s' rest with ⟨s'', rem, sub, f⟩
      have hrest := ih s'
      rw [hd] at hrest
      simp [drain, hs, hd]
      exact hrest
    | error e =>
      cases e <;> simp [drain, hs]

/-- Rewriting `Matcher::matches` as a conjunction of its two checks. -/
theorem matches_eq (m : Matcher) (resp : Response) :
    m.matches resp
      = ((m.codes.any fun r => r.contains resp.status)
          && match m.size with
             | some sz => sz.contains resp.body.length
             | none => true) := by
  rw [Matcher.matches]
  cases hc : m.codes.any fun r => r.contains resp.status <;>
    cases m.size <;> simp [hc]

/-- C2: in the pipelining inner loop, a candidate i=n the pending queue is
permanently removed exactly when its submission succeeds (the queue always
splits into the successfully submitted prefix followed by the remainder); on
`InFlightFull` (AdmissionDenied) or `WouldBlock` (Transient) the loop stops
draining for the tick and the failing candidate stays at the front of the
queue; on success the candidate is popped and draining continues. -/
theorem C2_drain_backpressure {σ : Type}
    (submit : σ → Request → Except ClientError Nat × σ) (base : Request) :
    (∀ (s : σ) (pending : List String),
        pending = (drain submit base s pending).2.2.1
                    ++ (drain submit base s pending).2.1)
    ∧ (∀ (s : σ) (w : String) (rest : List String),
        ((submit s (base.with_path w)).1 = .error .inFlightFull ∨
         (submit s (base.with_path w)).1 = .error .wouldBlock) →
        drain submit base s (w :: rest)
          = ((submit s (base.with_path w)).2, w :: rest, [], false))
    ∧ (∀ (s : σ) (w : String) (rest : List String) (id : Nat),
        (submit s (base.with_path w)).1 = .ok id →
        drain submit base s (w :: rest)
          = ((drain submit base (submit s (base.with_path w)).2 rest).1,
             (drain submit base (submit s (base.with_path w)).2 rest).2.1,
             w :: (drain submit base (submit s (base.with_path w)).2 rest).2.2.1,
             (drain submit base (submit s (base.with_path w)).2 rest).2.2.2)) := by
  refine ⟨fun s pending => drain_decomp submit base pending s, ?_, ?_⟩
  · intro s w rest h
    rcases hs : submit s (base.with_path w) with ⟨r, s'⟩
    rw [hs] at h
    simp at h
    rcases h with h | h <;> subst h <;> simp [drain, hs]
  · intro s w rest id h
    rcases hs : submit s (base.with_path w) with ⟨r, s'⟩
    rw [hs] at h
    simp at h
    subst h
    rcases hd : drain submit base s' rest with ⟨s'', rem, sub, f⟩
    simp [drain, hs, hd]

/-- Witness for C2 at a concrete submit oracle and queue. -/
theorem C2_drain_backpressure_witness :
    drain submitEx baseReq 1 ["b"] = (1, ["b"], [], false) ∧
    drain submitEx baseReq 0 ["a", "b"] = (1, ["b"], ["a"], false) := by
  have h := C2_drain_backpressure submitEx baseReq
  refine ⟨h.2.1 1 "b" [] (Or.inl rfl), ?_⟩
  have h3 := h.2.2 0 "a" ["b"] 0 rfl
  exact h3

/-- C3: `Client::send_request` admission. With `ensure_h3` succeeding: a zero
peer-advertised bidirectional stream budget fails with `InFlightFull`
(AdmissionDenied) whatever the engine would have answered; a
`StreamBlocked` engine reply fails with `WouldBlock` (Transient); both
failures leave the in-flight table unchanged; a successful engine reply with a
fresh stream id inserts exactly `InFlight::new()` — no status, empty headers,
empty body — under that id. -/
theorem C3_send_request_admission (left : Nat) (h3res : H3SendResult)
    (req : Request) (tbl : Table) :
    (left = 0 → send_request true left h3res req tbl = (.error .inFlightFull, tbl))
    ∧ (left ≠ 0 → send_request true left .streamBlocked req tbl = (.error .wouldBlock, tbl))
    ∧ (∀ id, left ≠ 0 → lookupTable tbl id = none →
        send_request true left (.ok id) req tbl = (.ok id, insertTable tbl id InFlight.new))
    ∧ InFlight.new.status = none ∧ InFlight.new.headers = [] ∧ InFlight.new.body = [] := by
  refine ⟨?_, ?_, ?_, rfl, rfl, rfl⟩
  · intro h
    simp [send_request, h]
  · intro h
    simp [send_request, h]
  · intro id h hfresh
    simp [send_request, h, hfresh]

/-- Witness for C3 at concrete budgets and the empty table. -/
theorem C3_send_request_admission_witness :
    send_request true 0 (.ok 9) baseReq [] = (.error .inFlightFull, []) ∧
    send_request true 3 .streamBlocked baseReq [] = (.error .wouldBlock, []) ∧
    send_request true 3 (.ok 9) baseReq [] = (.ok 9, [(9, InFlight.new)]) := by
  refine ⟨(C3_send_request_admission 0 (.ok 9) baseReq []).1 rfl,
          (C3_send_request_admission 3 .streamBlocked baseReq []).2.1 (by decide),
          (C3_send_request_admission 3 (.ok 9) baseReq []).2.2.1 9 (by decide) rfl⟩

/-- C6: `Matcher::matches` accepts a response exactly when the status lies in
at least one configured inclusive range and, whenever a body-size range is
configured, the body length lies in that inclusive range; the default
configuration accepts status 200 and rejects status 404, whatever the headers
and body. -/
theorem C6_matcher_ranges (m : Matcher) (resp : Response) :
    (m.matches resp = true ↔
      ((∃ r ∈ m.codes, r.lo ≤ resp.status ∧ resp.status ≤ r.hi) ∧
       ∀ sz, m.size = some sz → sz.lo ≤ resp.body.length ∧ resp.body.length ≤ sz.hi))
    ∧ Matcher.default.matches ⟨200, resp.headers, resp.body⟩ = true
    ∧ Matcher.default.matches ⟨404, resp.headers, resp.body⟩ = false := by
  refine ⟨?_, rfl, rfl⟩
  rw [matches_eq]
  rcases m.size with _ | sz <;>
    simp [List.any_eq_true, RangeIncl.contains]

/-- Witness for C6 at the default configuration and a concrete response. -/
theorem C6_matcher_ranges_witness :
    Matcher.default.matches ⟨200, [("server", "x")], [1, 2, 3]⟩ = true :=
  (C6_matcher_ranges Matcher.default ⟨200, [("server", "x")], [1, 2, 3]⟩).2.1

/-- C7: for a fixed configuration, `Matcher::matches` depends only on the
response status and the body length — two responses agreeing on those agree on
the verdict, whatever their headers or body bytes. -/
theorem C7_matcher_pure (m : Matcher) (r₁ r₂ : Response)
    (hs : r₁.status = r₂.status) (hl : r₁.body.length = r₂.body.length) :
    m.matches r₁ = m.matches r₂ := by
  simp only [Matcher.matches, hs, hl]

/-- Witness for C7: same status and body length, different headers and bytes. -/
theorem C7_matcher_pure_witness :
    Matcher.default.matches ⟨200, [("a", "b")], [1, 2]⟩
      = Matcher.default.matches ⟨200, [], [9, 9]⟩ :=
  C7_matcher_pure Matcher.default ⟨200, [("a", "b")], [1, 2]⟩ ⟨200, [], [9, 9]⟩ rfl rfl

theorem lookupTable_insert_self (tbl : Table) (id : Nat) (v : InFlight) :
    lookupTable (insertTable tbl id v) id = some v := by
  induction tbl with
  | nil => simp [insertTable, lookupTable]
  | cons hd rest ih =>
    obtain ⟨k, w⟩ := hd
    by_cases hk : k = id <;> simp [insertTable, lookupTable, hk, ih]

/-- C4: processing a Finished event for a tracked stream removes its entry
from the in-flight table and, when a status was recorded, appends exactly one
completed Response built from the accumulated state; when no status was
recorded the harvest fails with the missing-status error — and the stream is
no longer tracked in either case. -/
theorem C4_finished_drains (tbl : Table) (completed : List Response) (id : Nat)
    (st : InFlight) (h : lookupTable tbl id = some st)
    (hnodup : (tbl.map Prod.fst).Nodup) :
    (∀ s, st.status = some s →
        processEvent tbl completed (.finishedEv id)
          = (eraseTable tbl id, completed ++ [⟨s, st.headers, st.body⟩], none))
    ∧ (st.status = none →
        processEvent tbl completed (.finishedEv id)
          = (eraseTable tbl id, completed, some .missingStatus))
    ∧ lookupTable (processEvent tbl completed (.finishedEv id)).1 id = none := by
  refine ⟨?_, ?_, ?_⟩
  · intro s hs
    simp [processEvent, h, hs]
  · intro hs
    simp [processEvent, h, hs]
  · have h1 : (processEvent tbl completed (.finishedEv id)).1 = eraseTable tbl id := by
      cases hs : st.status <;> simp [processEvent, h, hs]
    rw [h1]
    exact lookupTable_erase_self tbl id hnodup

/-- Witness for C4: a tracked stream with a recorded status completes. -/
theorem C4_finished_drains_witness :
    processEvent [(3, ⟨some 200, [], [5]⟩)] [] (.finishedEv 3)
      = ([], [⟨200, [], [5]⟩], none) ∧
    lookupTable (processEvent [(3, ⟨some 200, [], [5]⟩)] [] (.finishedEv 3)).1 3
      = none := by
  have h := C4_finished_drains [(3, ⟨some 200, [], [5]⟩)] [] 3 ⟨some 200, [], [5]⟩
    rfl (by simp)
  exact ⟨h.1 200 rfl, h.2.2⟩

/-- C8: across any sequence of poll events without a Finished event for the
tracked stream — Data events for the stream, possibly split over many ticks
and interleaved with events of other streams — the stream's accumulated body
buffer equals its previous contents followed by the exact concatenation, in
delivery order, of all body chunks the engine delivered for that stream. -/
theorem C8_body_concat (es : List H3Event) :
    ∀ (tbl : Table) (completed rs : List Response) (id : Nat) (st : InFlight),
      lookupTable tbl id = some st →
      H3Event.finishedEv id ∉ es →
      (pollEvents tbl completed es).2 = .ok rs →
      ∃ st', lookupTable (pollEvents tbl completed es).1 id = some st' ∧
        st'.body = st.body ++ ((dataChunksFor id es).map List.flatten).flatten := by
  induction es with
  | nil =>
    intro tbl completed rs id st h _ _
    exact ⟨st, h, by simp [dataChunksFor, pollEvents]⟩
  | cons e rest ih =>
    intro tbl completed rs id st h hfin hok
    have hfin' : H3Event.finishedEv id ∉ rest :=
      fun hm => hfin (List.mem_cons_of_mem _ hm)
    cases e with
    | headersEv i l =>
      by_cases hi : i = id
      · subst hi
        rcases hah : applyHeaders st l with ⟨st2, ok2⟩
        cases ok2 with
        | true =>
          have hstep : pollEvents tbl completed (H3Event.headersEv i l :: rest)
              = pollEvents (insertTable tbl i st2) completed rest := by
            simp [pollEvents, processEvent, h, hah]
          rw [hstep] at hok ⊢
          obtain ⟨st', hl', hb'⟩ :=
            ih _ _ rs _ st2 (lookupTable_insert_self tbl i st2) hfin' hok
          refine ⟨st', hl', ?_⟩
          have hb2 : st2.body = st.body := by
            have hap := applyHeaders_body l st
            rw [hah] at hap
            exact hap
          rw [hb', hb2]
          simp [dataChunksFor]
        | false =>
          exfalso
          simp [pollEvents, processEvent, h, hah] at hok
      · cases hli : lookupTable tbl i with
        | none =>
          exfalso
          simp [pollEvents, processEvent, hli] at hok
        | some sti =>
          rcases hah : applyHeaders sti l with ⟨st2, ok2⟩
          cases ok2 with
          | true =>
            have hstep : pollEvents tbl completed (H3Event.headersEv i l :: rest)
                = pollEvents (insertTable tbl i st2) completed rest := by
              simp [pollEvents, processEvent, hli, hah]
            rw [hstep] at hok ⊢
            have hlook : lookupTable (insertTable tbl i st2) id = some st := by
              rw [lookupTable_insert_ne _ _ _ _ (fun he => hi he.symm)]
              exact h
            obtain ⟨st', hl', hb'⟩ := ih _ _ rs _ st hlook hfin' hok
            exact ⟨st', hl', by rw [hb']; simp [dataChunksFor]⟩
          | false =>
            exfalso
            simp [pollEvents, processEvent, hli, hah] at hok
    | dataEv i cs =>
      by_cases hi : i = id
      · subst hi
        have hstep : pollEvents tbl completed (H3Event.dataEv i cs :: rest)
            = pollEvents (insertTable tbl i { st with body := st.body ++ cs.flatten })
                completed rest := by
          simp [pollEvents, processEvent, h]
        rw [hstep] at hok ⊢
        obtain ⟨st', hl', hb'⟩ :=
          ih _ _ rs _ _ (lookupTable_insert_self tbl i _) hfin' hok
        refine ⟨st', hl', ?_⟩
        rw [hb']
        simp [dataChunksFor]
      · cases hli : lookupTable tbl i with
        | none =>
          exfalso
          simp [pollEvents, processEvent, hli] at hok
        | some sti =>
          have hstep : pollEvents tbl completed (H3Event.dataEv i cs :: rest)
              = pollEvents (insertTable tbl i { sti with body := sti.body ++ cs.flatten })
                  completed rest := by
            simp [pollEvents, processEvent, hli]
          rw [hstep] at hok ⊢
          have hlook : lookupTable (insertTable tbl i
              { sti with body := sti.body ++ cs.flatten }) id = some st := by
            rw [lookupTable_insert_ne _ _ _ _ (fun he => hi he.symm)]
            exact h
          obtain ⟨st', hl', hb'⟩ := ih _ _ rs _ st hlook hfin' hok
          exact ⟨st', hl', by rw [hb']; simp [dataChunksFor, hi]⟩
    | finishedEv i =>
      have hi : i ≠ id := by
        intro he
        exact hfin (by rw [he]; exact List.mem_cons_self _ _)
      cases hli : lookupTable tbl i with
      | none =>
        exfalso
        simp [pollEvents, processEvent, hli] at hok
      | some sti =>
        cases hsti : sti.status with
        | none =>
          exfalso
          simp [pollEvents, processEvent, hli, hsti] at hok
        | some sc =>
          have hstep : pollEvents tbl completed (H3Event.finishedEv i :: rest)
              = pollEvents (eraseTable tbl i)
                  (completed ++ [⟨sc, sti.headers, sti.body⟩]) rest := by
            simp [pollEvents, processEvent, hli, hsti]
          rw [hstep] at hok ⊢
          have hlook : lookupTable (eraseTable tbl i) id = some st := by
            rw [lookupTable_erase_ne _ _ _ (fun he => hi he.symm)]
            exact h
          obtain ⟨st', hl', hb'⟩ := ih _ _ rs _ st hlook hfin' hok
          exact ⟨st', hl', by rw [hb']; simp [dataChunksFor]⟩
    | otherEv =>
      have hstep : pollEvents tbl completed (H3Event.otherEv :: rest)
          = pollEvents tbl completed rest := by
        simp [pollEvents, processEvent]
      rw [hstep] at hok ⊢
      obtain ⟨st', hl', hb'⟩ := ih _ _ rs _ st h hfin' hok
      exact ⟨st', hl', by rw [hb']; simp [dataChunksFor]⟩

/-- A small event trace for the C8 witness: one stream, data split across two
Data events with an unrelated event in between. -/
def es0 : List H3Event :=
  [.dataEv 7 [[1, 2], [3]], .otherEv, .dataEv 7 [[4]]]

/-- Witness for C8 on a concrete split-delivery trace. -/
theorem C8_body_concat_witness :
    ∃ st', lookupTable (pollEvents [(7, InFlight.new)] [] es0).1 7 = some st' ∧
      st'.body = InFlight.new.body ++ ((dataChunksFor 7 es0).map List.flatten).flatten :=
  C8_body_concat es0 [(7, InFlight.new)] [] [] 7 InFlight.new rfl (by decide) rfl

theorem step_preserves_bound {N : Nat} {s s' : Sys} (hstep : Step s s')
    (h : s.tbl.length + s.left ≤ N) : s'.tbl.length + s'.left ≤ N := by
  cases hstep with
  | submit id req hl hfresh =>
    have ht : (send_request true s.left (.ok id) req s.tbl).2
        = insertTable s.tbl id InFlight.new := by
      simp [send_request, hl, hfresh]
    show (send_request true s.left (.ok id) req s.tbl).2.length + (s.left - 1) ≤ N
    rw [ht, length_insertTable_none _ _ _ hfresh]
    omega
  | update id st st' hl =>
    show (insertTable s.tbl id st').length + s.left ≤ N
    rw [length_insertTable_some _ _ _ _ hl]
    exact h
  | finish id st hl g hg =>
    have he := length_eraseTable_some _ _ _ hl
    show (eraseTable s.tbl id).length + (s.left + g) ≤ N
    omega

/-- C5: starting from an empty in-flight table with peer-advertised budget
`N`, every state reachable by submissions (admitted only while the remaining
budget is non-zero, each consuming one unit), entry updates and completions
(each freeing an entry and at most one unit of budget) keeps the in-flight
table's size at or below `N`. -/
theorem C5_admission_bound (N : Nat) (s : Sys)
    (h : Relation.ReflTransGen Step ⟨[], N⟩ s) : s.tbl.length ≤ N := by
  have key : ∀ s' : Sys, Relation.ReflTransGen Step ⟨[], N⟩ s' →
      s'.tbl.length + s'.left ≤ N := by
    intro s' h'
    induction h' with
    | refl => simp
    | tail hr hstep ih => exact step_preserves_bound hstep ih
  have hb := key s h
  omega

/-- Witness for C5: one admitted submission under budget 1. -/
theorem C5_admission_bound_witness :
    (Sys.mk [(5, InFlight.new)] 0).tbl.length ≤ 1 := by
  have hstep : Step ⟨[], 1⟩ ⟨[(5, InFlight.new)], 0⟩ :=
    Step.submit ⟨[], 1⟩ 5 baseReq (by decide) rfl
  exact C5_admission_bound 1 ⟨[(5, InFlight.new)], 0⟩
    (Relation.ReflTransGen.single hstep)

theorem submitAll_length_only (engs : List (Bool × Nat × H3SendResult)) :
    ∀ (reqs₁ reqs₂ : List Request) (tbl : Table),
      reqs₁.length = reqs₂.length →
      submitAll engs reqs₁ tbl = submitAll engs reqs₂ tbl := by
  induction engs with
  | nil =>
    intro reqs₁ reqs₂ tbl _
    cases reqs₁ <;> cases reqs₂ <;> rfl
  | cons eng engs ih =>
    intro reqs₁ reqs₂ tbl h
    cases reqs₁ with
    | nil =>
      cases reqs₂ with
      | nil => rfl
      | cons r rs => simp at h
    | cons r₁ rs₁ =>
      cases reqs₂ with
      | nil => simp at h
      | cons r₂ rs₂ =>
        obtain ⟨e, left, res⟩ := eng
        show submitAll engs rs₁ (send_request e left res r₁ tbl).2
            = submitAll engs rs₂ (send_request e left res r₂ tbl).2
        have hsr : send_request e left res r₁ tbl = send_request e left res r₂ tbl := rfl
        rw [hsr]
        exact ih rs₁ rs₂ _ (by simpa using h)

/-- C1 (code evaluation): harvested responses carry no information about the
candidate request paths. Submitting the candidate words of a wordlist and then
harvesting yields exactly the same in-flight table and the same responses as
submitting same-length all-empty words: `send_request` stores only
`InFlight::new()` (client.rs 213), and `http::Response` has no path field, so
nothing derived from a harvested response — in particular the `resp.path`
that `fuzz.rs` line 62 tries to print — can name the candidate that caused
it. -/
theorem C1_no_path_correlation (engs : List (Bool × Nat × H3SendResult))
    (base : Request) (ws : List String) (tbl : Table)
    (completed : List Response) (events : List H3Event) :
    pollEvents (submitAll engs (ws.map base.with_path) tbl) completed events
      = pollEvents (submitAll engs (ws.map fun _ => base.with_path "") tbl)
          completed events := by
  rw [submitAll_length_only engs (ws.map base.with_path)
    (ws.map fun _ => base.with_path "") tbl (by simp)]

/-- C10 counterexample: a URL with host and known port for which the DNS
lookup returns no IPv4 address (for example an IPv6-only host) makes
`QuicConfig::new` panic on `resolve_ipv4(host, port)?[0]` instead of
succeeding. -/
theorem C10_counterexample_resolution :
    QuicConfig.new (fun _ _ => some []) ⟨some "h3.example", some 443⟩ true
        = ConfigResult.panicIndex
    ∧ (QuicConfig.new (fun _ _ => some []) ⟨some "h3.example", some 443⟩ true).isOk
        = false :=
  ⟨rfl, rfl⟩

/-- C10 (amended): whenever the URL has a host and a known port and resolution
yields at least one IPv4 address, `QuicConfig::new(url, b)` succeeds and the
resulting `verify_peer` is the negation of `b` — the parameter is a no-verify
flag, so passing `true` disables peer certificate verification. -/
theorem C10_no_verify_flag (resolver : String → Nat → Option (List SocketAddrV4))
    (host : String) (port : Nat) (b : Bool) (a : SocketAddrV4)
    (addrs : List SocketAddrV4)
    (hres : resolver host port = some (a :: addrs)) :
    QuicConfig.new resolver ⟨some host, some port⟩ b
      = .ok { server_name := host, remote_addr := a, verify_peer := !b } := by
  simp [QuicConfig.new, hres]

/-- Witness for C10 at a concrete resolver: `no_verify = true` yields
`verify_peer = false`. -/
theorem C10_no_verify_flag_witness :
    QuicConfig.new (fun _ _ => some [⟨1, 443⟩]) ⟨some "h3.example", some 443⟩ true
      = .ok { server_name := "h3.example", remote_addr := ⟨1, 443⟩,
              verify_peer := false } :=
  C10_no_verify_flag (fun _ _ => some [⟨1, 443⟩]) "h3.example" 443 true ⟨1, 443⟩ [] rfl

theorem fuzzLoop_stuck (fuel : Nat) :
    ∀ s : Unit, fuzzLoop stuckEngine baseReq fuel s ["a"] = none := by
  induction fuel with
  | zero => intro s; rfl
  | succ n ih =>
    intro s
    have hstep : fuzzLoop stuckEngine baseReq (n + 1) s ["a"]
        = fuzzLoop stuckEngine baseReq n s ["a"] := by
      simp [fuzzLoop, stuckEngine, drain]
    rw [hstep]
    exact ih s

theorem fuzzLoop_done_empty {σ : Type} (M : EngineModel σ) (base : Request) :
    ∀ (fuel : Nat) (s : σ) (pending : List String) (s' : σ) (p' : List String),
      fuzzLoop M base fuel s pending = some (.done s' p') →
      p' = [] ∧ M.hasInFlight s' = false := by
  intro fuel
  induction fuel with
  | zero =>
    intro s pending s' p' h
    simp [fuzzLoop] at h
  | succ n ih =>
    intro s pending s' p' h
    simp only [fuzzLoop] at h
    by_cases hg : pending = [] ∧ M.hasInFlight s = false
    · rw [if_pos hg] at h
      injection h with h2
      injection h2 with hs hp
      subst hs
      subst hp
      exact hg
    · rw [if_neg hg] at h
      by_cases hf : (drain M.submit base ((M.harvest (M.pump s)).1) pending).2.2.2 = true
      · rw [if_pos hf] at h
        exact LoopResult.noConfusion (Option.some.inj h)
      · rw [if_neg hf] at h
        exact ih _ _ s' p' h

theorem timerWeight_cons (t : Nat) (s : List Nat) :
    timerWeight (t :: s) = t + 1 + timerWeight s := by
  simp [timerWeight]

theorem timerWeight_harvestStep_le (s : List Nat) :
    timerWeight (harvestStep s) ≤ timerWeight s := by
  induction s with
  | nil => exact Nat.le_refl _
  | cons t rest ih =>
    by_cases ht : t = 0
    · subst ht
      have h1 : harvestStep (0 :: rest) = harvestStep rest := by simp [harvestStep]
      rw [h1, timerWeight_cons]
      omega
    · have h1 : harvestStep (t :: rest) = (t - 1) :: harvestStep rest := by
        simp [harvestStep, ht]
      rw [h1, timerWeight_cons, timerWeight_cons]
      omega

theorem timerWeight_harvestStep_lt (s : List Nat) (h : s ≠ []) :
    timerWeight (harvestStep s) < timerWeight s := by
  cases s with
  | nil => exact absurd rfl h
  | cons t rest =>
    have hle := timerWeight_harvestStep_le rest
    by_cases ht : t = 0
    · subst ht
      have h1 : harvestStep (0 :: rest) = harvestStep rest := by simp [harvestStep]
      rw [h1, timerWeight_cons]
      omega
    · have h1 : harvestStep (t :: rest) = (t - 1) :: harvestStep rest := by
        simp [harvestStep, ht]
      rw [h1, timerWeight_cons, timerWeight_cons]
      omega

theorem timerWeight_replicate_append (k D : Nat) (s : List Nat) :
    timerWeight (List.replicate k D ++ s) = k * (D + 1) + timerWeight s := by
  induction k with
  | zero => simp
  | succ n ih =>
    rw [List.replicate_succ, List.cons_append, timerWeight_cons, ih, Nat.succ_mul]
    ring

theorem drain_timer (N D : Nat) (base : Request) :
    ∀ (pending : List String) (s : List Nat),
      ∃ sub rem, drain (timerEngine N D).submit base s pending
          = (List.replicate sub.length D ++ s, rem, sub, false)
        ∧ pending = sub ++ rem
        ∧ (rem ≠ [] → N ≤ (List.replicate sub.length D ++ s).length) := by
  intro pending
  induction pending with
  | nil =>
    intro s
    refine ⟨[], [], ?_, rfl, fun hc => absurd rfl hc⟩
    simp [drain]
  | cons w rest ih =>
    intro s
    by_cases hlt : s.length < N
    · have hsub : (timerEngine N D).submit s (base.with_path w)
          = (.ok s.length, D :: s) := by
        simp [timerEngine, hlt]
      obtain ⟨sub, rem, hdr, hdec, hstop⟩ := ih (D :: s)
      refine ⟨w :: sub, rem, ?_, by simp [hdec], ?_⟩
      · simp [drain, hsub, hdr, List.replicate_succ', List.append_assoc]
      · intro hrem
        have h2 := hstop hrem
        simp at h2 ⊢
        omega
    · have hsub : (timerEngine N D).submit s (base.with_path w)
          = (.error .inFlightFull, s) := by
        simp [timerEngine, hlt]
      refine ⟨[], w :: rest, ?_, rfl, ?_⟩
      · simp [drain, hsub]
      · intro _
        simp
        omega

theorem fuzzLoop_timer_step (N D : Nat) (base : Request) (s : List Nat)
    (pending : List String)
    (hg : ¬(pending = [] ∧ (timerEngine N D).hasInFlight s = false)) :
    ∃ sub rem, pending = sub ++ rem
      ∧ (∀ fuel, fuzzLoop (timerEngine N D) base (fuel + 1) s pending
          = fuzzLoop (timerEngine N D) base fuel
              (List.replicate sub.length D ++ harvestStep s) rem)
      ∧ (rem ≠ [] → N ≤ (List.replicate sub.length D ++ harvestStep s).length) := by
  obtain ⟨sub, rem, hdr, hdec, hstop⟩ := drain_timer N D base pending (harvestStep s)
  refine ⟨sub, rem, hdec, ?_, hstop⟩
  intro fuel
  have hunfold : fuzzLoop (timerEngine N D) base (fuel + 1) s pending
      = if pending = [] ∧ (timerEngine N D).hasInFlight s = false then
          some (.done s pending)
        else if (drain (timerEngine N D).submit base (harvestStep s) pending).2.2.2 then
          some (.fatalErr (drain (timerEngine N D).submit base (harvestStep s) pending).1
            (drain (timerEngine N D).submit base (harvestStep s) pending).2.1)
        else
          fuzzLoop (timerEngine N D) base fuel
            (drain (timerEngine N D).submit base (harvestStep s) pending).1
            (drain (timerEngine N D).submit base (harvestStep s) pending).2.1 := rfl
  rw [hunfold, if_neg hg, hdr]
  simp

theorem timer_terminates (N D : Nat) (hN : 1 ≤ N) (base : Request) :
    ∀ (μ : Nat) (pending : List String) (s : List Nat),
      pending.length * (D + 2) + timerWeight s ≤ μ →
      ∃ fuel res, fuzzLoop (timerEngine N D) base fuel s pending = some res := by
  intro μ
  induction μ with
  | zero =>
    intro pending s h
    have hp : pending = [] := by
      cases pending with
      | nil => rfl
      | cons w rest =>
        exfalso
        rw [List.length_cons, Nat.succ_mul] at h
        generalize hP : rest.length * (D + 2) = P at h
        omega
    subst hp
    have hs : s = [] := by
      cases s with
      | nil => rfl
      | cons t rest =>
        exfalso
        rw [timerWeight_cons] at h
        simp at h
    subst hs
    refine ⟨1, .done [] [], ?_⟩
    simp [fuzzLoop, timerEngine]
  | succ μ ihμ =>
    intro pending s h
    by_cases hg : pending = [] ∧ (timerEngine N D).hasInFlight s = false
    · exact ⟨1, .done s pending, by simp only [fuzzLoop, if_pos hg]⟩
    · obtain ⟨sub, rem, hdec, hstep, hstop⟩ := fuzzLoop_timer_step N D base s pending hg
      rcases hsub : sub with _ | ⟨w, sub'⟩
      · subst hsub
        have hrem : rem = pending := by simpa using hdec.symm
        subst hrem
        have hsne : s ≠ [] := by
          by_cases hpe : rem = []
          · intro hse
            apply hg
            refine ⟨hpe, ?_⟩
            rw [hse]
            rfl
          · intro hse
            have hstop2 := hstop hpe
            rw [hse] at hstop2
            simp [harvestStep] at hstop2
            omega
        have hWlt := timerWeight_harvestStep_lt s hsne
        have hmeas : rem.length * (D + 2) + timerWeight (harvestStep s) ≤ μ := by
          generalize hP : rem.length * (D + 2) = P at h ⊢
          omega
        obtain ⟨fuel, res, hres⟩ := ihμ rem (harvestStep s) hmeas
        refine ⟨fuel + 1, res, ?_⟩
        have hst := hstep fuel
        simp only [List.length_nil, List.replicate_zero, List.nil_append] at hst
        exact hst.trans hres
      · have hk : 1 ≤ sub.length := by rw [hsub]; simp
        have hlen : pending.length = sub.length + rem.length := by rw [hdec]; simp
        have hW' := timerWeight_replicate_append sub.length D (harvestStep s)
        have hWle := timerWeight_harvestStep_le s
        have hmeas : rem.length * (D + 2)
            + timerWeight (List.replicate sub.length D ++ harvestStep s) ≤ μ := by
          rw [hW']
          have hexp : pending.length * (D + 2)
              = sub.length * (D + 1) + sub.length + rem.length * (D + 2) := by
            rw [hlen]
            ring
          rw [hexp] at h
          generalize hA : sub.length * (D + 1) = A at h ⊢
          generalize hB : rem.length * (D + 2) = B at h ⊢
          omega
        obtain ⟨fuel, res, hres⟩ :=
          ihμ rem (List.replicate sub.length D ++ harvestStep s) hmeas
        exact ⟨fuel + 1, res, (hstep fuel).trans hres⟩

/-- C9 counterexample: a finite wordlist (`["a"]`) against a connection that
never admits a request — the peer-advertised stream budget is zero forever, so
every submission returns `InFlightFull` and the (vacuously satisfied)
hypothesis that every accepted request eventually completes holds — makes the
control loop spin forever: no amount of fuel finishes it. -/
theorem C9_counterexample_zero_budget :
    ¬ ∃ (fuel : Nat) (res : LoopResult Unit),
        fuzzLoop stuckEngine baseReq fuel () ["a"] = some res := by
  rintro ⟨fuel, res, hres⟩
  rw [fuzzLoop_stuck fuel ()] at hres
  exact Option.noConfusion hres

/-- C9 (amended): the control loop exits normally only with an empty work
queue and no in-flight requests, it runs (and only runs) while the queue is
non-empty or requests are in flight, and — given a finite wordlist and a
connection that keeps a non-zero concurrency budget and completes every
accepted request within a bounded number of ticks — it terminates. -/
theorem C9_loop_guard_termination :
    (∀ (σ : Type) (M : EngineModel σ) (base : Request) (fuel : Nat) (s : σ)
        (pending : List String) (s' : σ) (p' : List String),
        fuzzLoop M base fuel s pending = some (.done s' p') →
        p' = [] ∧ M.hasInFlight s' = false)
    ∧ (∀ (σ : Type) (M : EngineModel σ) (base : Request) (fuel : Nat) (s : σ),
        M.hasInFlight s = false →
        fuzzLoop M base (fuel + 1) s [] = some (.done s []))
    ∧ (∀ N D : Nat, 1 ≤ N →
        ∀ (base : Request) (pending : List String) (s : List Nat),
        ∃ fuel res, fuzzLoop (timerEngine N D) base fuel s pending = some res) := by
  refine ⟨?_, ?_, ?_⟩
  · intro σ M base fuel
    exact fuzzLoop_done_empty M base fuel
  · intro σ M base fuel s hs
    simp [fuzzLoop, hs]
  · intro N D hN base pending s
    exact timer_terminates N D hN base (pending.length * (D + 2) + timerWeight s)
      pending s (Nat.le_refl _)

/-- Witness for C9: a one-word list against a budget-1, instant-completion
connection terminates. -/
theorem C9_loop_guard_termination_witness :
    ∃ fuel res, fuzzLoop (timerEngine 1 0) baseReq fuel [] ["a"] = some res :=
  C9_loop_guard_termination.2.2 1 0 (by decide) baseReq ["a"] []

end Fuzzh3
